import Mathlib

/-!
# Verification of the DM-Backend fragmentation layer

Shallow embedding of the fragmentation directory
(`internal/database/fragmentation.go`) and the path-resolution helpers
(`buildPath`, `CleanPath`, `path.Join`, `path.Clean` as quoted in
`CONTRIBUTING.md`), together with proofs of the specified properties.

The LevelDB store is modelled as an association list from keys to byte
strings (`List Char` values).  Environmental failure of `leveldb.OpenFile`
is modelled by a boolean `openOk` passed to each operation; every
operation also reports how many times it attempted to open the store
(`opens`), which is `0` exactly when the function returned before any
I/O (no store open, hence no directory creation).
-/

namespace DMBackend

/-! ## Decimal serialization of shard numbers

`fmt.Sprintf("%d", shard)` and `strconv.ParseInt(s, 10, 64)` from the Go
source, modelled over `Int` with the explicit int64 range check that
`ParseInt` performs. -/

/-- The character for a decimal digit `d < 10`, as in Go's `%d` formatting. -/
def digitChar (d : Nat) : Char :=
  Char.ofNat (48 + d)

/-- Inverse of `digitChar`: the value of a decimal digit character. -/
def charDigit? (c : Char) : Option Nat :=
  if 48 ≤ c.toNat ∧ c.toNat ≤ 57 then some (c.toNat - 48) else none

/-- Decimal digits of a natural number, most significant first, with
explicit fuel so that the definition is structural (the fuel `n + 1`
always suffices). -/
def natToDigitsF : Nat → Nat → List Char
  | 0, _ => []
  | fuel + 1, n =>
    if n < 10 then [digitChar n]
    else natToDigitsF fuel (n / 10) ++ [digitChar (n % 10)]

/-- Decimal digits of a natural number, most significant first. -/
def natToDigits (n : Nat) : List Char :=
  natToDigitsF (n + 1) n

/-- Accumulator loop of base-10 parsing: consumes decimal digits,
failing on any non-digit character. -/
def digitsToNatAux (acc : Nat) : List Char → Option Nat
  | [] => some acc
  | c :: cs =>
    match charDigit? c with
    | some d => digitsToNatAux (10 * acc + d) cs
    | none => none

/-- Base-10 parse of a non-empty all-digit string. -/
def digitsToNat (l : List Char) : Option Nat :=
  if l = [] then none else digitsToNatAux 0 l

/-- Rendering of an int64 as base-10 text, as `fmt.Sprintf("%d", shard)`
produces it: a minus sign for negative values, digits otherwise. -/
def intToDecimal (n : Int) : List Char :=
  if n < 0 then '-' :: natToDigits n.natAbs else natToDigits n.toNat

/-- Model of Go `strconv.ParseInt(s, 10, 64)`: optional sign, decimal
digits, and the 64-bit range check (values outside `[-2^63, 2^63)` fail). -/
def parseInt64 (l : List Char) : Option Int :=
  match l with
  | [] => none
  | c :: rest =>
    if c = '-' then
      (digitsToNat rest).bind (fun m => if m ≤ 2 ^ 63 then some (-(m : Int)) else none)
    else if c = '+' then
      (digitsToNat rest).bind (fun m => if m < 2 ^ 63 then some ((m : Int)) else none)
    else
      (digitsToNat l).bind (fun m => if m < 2 ^ 63 then some ((m : Int)) else none)

theorem charDigit_digitChar {d : Nat} (hd : d < 10) :
    charDigit? (digitChar d) = some d := by
  interval_cases d <;> decide

theorem digitChar_isDigit {d : Nat} (hd : d < 10) :
    48 ≤ (digitChar d).toNat ∧ (digitChar d).toNat ≤ 57 := by
  interval_cases d <;> decide

theorem natToDigitsF_ne_nil {fuel n : Nat} (h : n < fuel) :
    natToDigitsF fuel n ≠ [] := by
  cases fuel with
  | zero => omega
  | succ f =>
    simp only [natToDigitsF]
    split
    · simp
    · simp

theorem natToDigitsF_digits {fuel : Nat} :
    ∀ {n : Nat}, n < fuel → ∀ c ∈ natToDigitsF fuel n,
      48 ≤ c.toNat ∧ c.toNat ≤ 57 := by
  induction fuel with
  | zero => intro n h; omega
  | succ f ih =>
    intro n hn c hc
    simp only [natToDigitsF] at hc
    split at hc
    · rename_i h10
      simp only [List.mem_singleton] at hc
      exact hc ▸ digitChar_isDigit h10
    · rename_i h10
      push_neg at h10
      rcases List.mem_append.mp hc with h1 | h2
      · have hdn : n / 10 < n := Nat.div_lt_self (by omega) (by omega)
        have hdiv : n / 10 < f := by omega
        exact ih hdiv c h1
      · simp only [List.mem_singleton] at h2
        exact h2 ▸ digitChar_isDigit (Nat.mod_lt _ (by omega))

theorem digitsToNatAux_append (acc : Nat) (l₁ l₂ : List Char) :
    digitsToNatAux acc (l₁ ++ l₂) =
      (digitsToNatAux acc l₁).bind (fun a => digitsToNatAux a l₂) := by
  induction l₁ generalizing acc with
  | nil => rfl
  | cons c cs ih =>
    simp only [List.cons_append, digitsToNatAux]
    cases charDigit? c with
    | none => rfl
    | some d => exact ih _

theorem digitsToNatAux_natToDigitsF {fuel : Nat} :
    ∀ {n : Nat}, n < fuel → ∀ acc : Nat,
      digitsToNatAux acc (natToDigitsF fuel n) =
        some (acc * 10 ^ (natToDigitsF fuel n).length + n) := by
  induction fuel with
  | zero => intro n h; omega
  | succ f ih =>
    intro n hn acc
    simp only [natToDigitsF]
    split
    · rename_i h10
      simp [digitsToNatAux, charDigit_digitChar h10]
      ring
    · rename_i h10
      push_neg at h10
      have hdn : n / 10 < n := Nat.div_lt_self (by omega) (by omega)
      have hdiv : n / 10 < f := by omega
      rw [digitsToNatAux_append, ih hdiv acc]
      simp [digitsToNatAux, charDigit_digitChar (Nat.mod_lt n (show 0 < 10 by omega))]
      rw [pow_succ]
      have := Nat.div_add_mod n 10
      ring_nf
      omega

theorem digitsToNat_natToDigits (n : Nat) :
    digitsToNat (natToDigits n) = some n := by
  unfold digitsToNat natToDigits
  rw [if_neg (natToDigitsF_ne_nil (Nat.lt_succ_self n))]
  rw [digitsToNatAux_natToDigitsF (Nat.lt_succ_self n) 0]
  simp

theorem natToDigits_head (n : Nat) :
    ∃ c cs, natToDigits n = c :: cs ∧ 48 ≤ c.toNat ∧ c.toNat ≤ 57 := by
  obtain ⟨c, cs, h⟩ := List.exists_cons_of_ne_nil
    (natToDigitsF_ne_nil (Nat.lt_succ_self n))
  refine ⟨c, cs, h, ?_⟩
  have hm : c ∈ natToDigitsF (n + 1) n := by
    have h' : natToDigitsF (n + 1) n = c :: cs := h
    rw [h']
    exact List.mem_cons_self c cs
  exact natToDigitsF_digits (Nat.lt_succ_self n) c hm

/-- Round-trip of decimal serialization for every value in the int64
range: the text written by `fmt.Sprintf` parses back by
`strconv.ParseInt` to the same value. -/
theorem parseInt64_intToDecimal {n : Int}
    (hlo : -(2 ^ 63) ≤ n) (hhi : n < 2 ^ 63) :
    parseInt64 (intToDecimal n) = some n := by
  unfold intToDecimal
  split
  · rename_i hneg
    have habs : n.natAbs ≤ 2 ^ 63 := by omega
    have h1 : parseInt64 ('-' :: natToDigits n.natAbs) =
        (digitsToNat (natToDigits n.natAbs)).bind
          (fun m => if m ≤ 2 ^ 63 then some (-(m : Int)) else none) := by
      simp [parseInt64]
    rw [h1, digitsToNat_natToDigits]
    show (if n.natAbs ≤ 2 ^ 63 then some (-(n.natAbs : Int)) else none) = some n
    rw [if_pos habs]
    congr 1
    omega
  · rename_i hpos
    push_neg at hpos
    obtain ⟨c, cs, hcons, hc48, hc57⟩ := natToDigits_head n.toNat
    rw [hcons]
    simp only [parseInt64]
    have hcm : c ≠ '-' := by
      intro h
      rw [h] at hc48
      revert hc48
      decide
    have hcp : c ≠ '+' := by
      intro h
      rw [h] at hc48
      revert hc48
      decide
    rw [if_neg hcm, if_neg hcp, ← hcons, digitsToNat_natToDigits]
    have hlt : n.toNat < 2 ^ 63 := by omega
    have htn : ((n.toNat : Nat) : Int) = n := Int.toNat_of_nonneg hpos
    show (if n.toNat < 2 ^ 63 then some ((n.toNat : Int)) else none) = some n
    rw [if_pos hlt, htn]

/-! ## The LevelDB store backing the GlobalSchema namespace

`leveldb.DB` restricted to the point operations the fragmentation layer
uses: `Get`, `Put`, `Delete`.  The store is an association list from
string keys to byte-string values; `Put` prepends (most recent entry
wins on lookup), `Delete` removes every entry for the key. -/

structure DB where
  entries : List (String × List Char)
deriving DecidableEq

/-- Point lookup: the most recently put value for the key, if any. -/
def DB.get (db : DB) (k : String) : Option (List Char) :=
  (db.entries.find? (fun e => e.1 == k)).map (fun e => e.2)

/-- Point write: overwrites any existing value for the key. -/
def DB.put (db : DB) (k : String) (v : List Char) : DB :=
  ⟨(k, v) :: db.entries⟩

/-- Point delete: removes the key from the store. -/
def DB.delete (db : DB) (k : String) : DB :=
  ⟨db.entries.filter (fun e => e.1 != k)⟩

/-- Error sentinels of the database package (`errors.New` values in
`fragmentation.go` and the store-creation helpers).  Go wraps them with
`fmt.Errorf("%w ...")`; only the sentinel kind is observable here. -/
inductive FragError
  | errShardNotFound
  | errFragmentationWrite
  | errFragmentationRead
  | errShardConversion
  | errEmptyKey
  | errDatabaseOpen
  | errInvalidPath
  | errDirectoryCreate
deriving DecidableEq

deriving instance DecidableEq for Except

/-- Result of one fragmentation-directory operation: the Go return
value, the state of the GlobalSchema store afterwards, and the number of
attempted store opens (`CreateLevelDBDatabase` calls).  `opens = 0`
means the function returned before any I/O: no store open and no
directory creation. -/
structure FragOut (α : Type) where
  res : Except FragError α
  db : DB
  opens : Nat
deriving DecidableEq

/-- Write loop of `FragmentationAdd`: empty keys in the batch are
skipped (with only a warning in Go), non-empty keys are written
unconditionally with the serialized shard value. -/
def addLoop (db : DB) (v : List Char) : List String → DB
  | [] => db
  | k :: ks => if k = "" then addLoop db v ks else addLoop (DB.put db k v) v ks

/-- Model of `FragmentationAdd` (fragmentation.go lines 36-64): rejects
an empty key list, opens the GlobalSchema store, then writes
`fmt.Sprintf("%d", shard)` under each non-empty key. -/
def FragmentationAdd (openOk : Bool) (db : DB) (shard : Int) (keys : List String) :
    FragOut Unit :=
  if keys.length = 0 then ⟨.error .errEmptyKey, db, 0⟩
  else if openOk = false then ⟨.error .errDatabaseOpen, db, 1⟩
  else ⟨.ok (), addLoop db (intToDecimal shard) keys, 1⟩

/-- Model of `FragmentationRemove` (fragmentation.go lines 72-99):
rejects the empty key, opens the store, checks existence by a `Get`
(absence is `ErrShardNotFound`), then deletes. -/
def FragmentationRemove (openOk : Bool) (db : DB) (key : String) : FragOut Unit :=
  if key = "" then ⟨.error .errEmptyKey, db, 0⟩
  else if openOk = false then ⟨.error .errDatabaseOpen, db, 1⟩
  else
    match db.get key with
    | none => ⟨.error .errShardNotFound, db, 1⟩
    | some _ => ⟨.ok (), db.delete key, 1⟩

/-- Model of `FragmentationGet` (fragmentation.go lines 107-132):
rejects the empty key, opens the store, reads the value (absence is
`ErrShardNotFound`), and parses it with `strconv.ParseInt(_, 10, 64)`
(failure is `ErrShardConversion`). -/
def FragmentationGet (openOk : Bool) (db : DB) (rowID : String) : FragOut Int :=
  if rowID = "" then ⟨.error .errEmptyKey, db, 0⟩
  else if openOk = false then ⟨.error .errDatabaseOpen, db, 1⟩
  else
    match db.get rowID with
    | none => ⟨.error .errShardNotFound, db, 1⟩
    | some v =>
      match parseInt64 v with
      | none => ⟨.error .errShardConversion, db, 1⟩
      | some n => ⟨.ok n, db, 1⟩

/-- Model of `FragmentationExists` (fragmentation.go lines 140-157):
rejects the empty key, opens the store; a failing store `Get` yields
`(false, nil)`, a successful one `(true, nil)`. -/
def FragmentationExists (openOk : Bool) (db : DB) (key : String) : FragOut Bool :=
  if key = "" then ⟨.error .errEmptyKey, db, 0⟩
  else if openOk = false then ⟨.error .errDatabaseOpen, db, 1⟩
  else
    match db.get key with
    | none => ⟨.ok false, db, 1⟩
    | some _ => ⟨.ok true, db, 1⟩

/-- Model of `FragmentationUpdate` (fragmentation.go lines 166-192):
rejects the empty key, confirms existence via `FragmentationExists`
(absence is `ErrShardNotFound`), then opens the store again and
overwrites the serialized shard value. -/
def FragmentationUpdate (openOk : Bool) (db : DB) (key : String) (newShard : Int) :
    FragOut Unit :=
  if key = "" then ⟨.error .errEmptyKey, db, 0⟩
  else
    let ex := FragmentationExists openOk db key
    match ex.res with
    | .error e => ⟨.error e, db, ex.opens⟩
    | .ok false => ⟨.error .errShardNotFound, db, ex.opens⟩
    | .ok true =>
      if openOk = false then ⟨.error .errDatabaseOpen, db, ex.opens + 1⟩
      else ⟨.ok (), db.put key (intToDecimal newShard), ex.opens + 1⟩

/-! ## Basic store lemmas -/

theorem DB.get_put (db : DB) (k : String) (v : List Char) :
    (db.put k v).get k = some v := by
  simp [DB.get, DB.put, List.find?]

theorem DB.get_put_ne (db : DB) (k k' : String) (v : List Char) (h : k ≠ k') :
    (db.put k v).get k' = db.get k' := by
  simp only [DB.get, DB.put, List.find?]
  have : (k == k') = false := by simp [h]
  simp [this]

theorem DB.get_delete (db : DB) (k : String) :
    (db.delete k).get k = none := by
  have hfind : (db.entries.filter (fun e => e.1 != k)).find? (fun e => e.1 == k)
      = none := by
    rw [List.find?_eq_none]
    intro e he
    have h2 := (List.mem_filter.mp he).2
    simp only [bne_iff_ne, ne_eq] at h2
    simp [h2]
  simp [DB.get, DB.delete, hfind]

theorem DB.get_mem {db : DB} {k : String} {v : List Char} (h : db.get k = some v) :
    ∃ e ∈ db.entries, e.2 = v := by
  unfold DB.get at h
  cases hf : db.entries.find? (fun e => e.1 == k) with
  | none => rw [hf] at h; simp at h
  | some e =>
    rw [hf] at h
    refine ⟨e, List.mem_of_find?_eq_some hf, ?_⟩
    simpa using h

/-! ## Well-formedness of reachable directory states -/

/-- A stored value is the decimal rendering of some int64. -/
def ShardValue (v : List Char) : Prop :=
  ∃ n : Int, -(2 ^ 63) ≤ n ∧ n < 2 ^ 63 ∧ v = intToDecimal n

/-- Every entry of the GlobalSchema store holds a decimal int64 value. -/
def WellFormed (db : DB) : Prop :=
  ∀ e ∈ db.entries, ShardValue e.2

/-- Directory states reachable from the empty store using only the
directory's own mutating operations (with int64 shard arguments, as the
Go signatures force). -/
inductive Reachable : DB → Prop
  | empty : Reachable ⟨[]⟩
  | add (openOk : Bool) (db : DB) (shard : Int) (keys : List String) :
      Reachable db → -(2 ^ 63) ≤ shard → shard < 2 ^ 63 →
      Reachable (FragmentationAdd openOk db shard keys).db
  | update (openOk : Bool) (db : DB) (key : String) (newShard : Int) :
      Reachable db → -(2 ^ 63) ≤ newShard → newShard < 2 ^ 63 →
      Reachable (FragmentationUpdate openOk db key newShard).db
  | remove (openOk : Bool) (db : DB) (key : String) :
      Reachable db → Reachable (FragmentationRemove openOk db key).db

theorem wf_put {db : DB} {k : String} {v : List Char}
    (h : WellFormed db) (hv : ShardValue v) : WellFormed (db.put k v) := by
  intro e he
  rcases List.mem_cons.mp he with rfl | hmem
  · exact hv
  · exact h e hmem

theorem wf_addLoop {v : List Char} (hv : ShardValue v) :
    ∀ (ks : List String) {db : DB}, WellFormed db → WellFormed (addLoop db v ks) := by
  intro ks
  induction ks with
  | nil => intro db h; exact h
  | cons k ks ih =>
    intro db h
    simp only [addLoop]
    split
    · exact ih h
    · exact ih (wf_put h hv)

theorem wf_delete {db : DB} {k : String} (h : WellFormed db) :
    WellFormed (db.delete k) :=
  fun e he => h e (List.mem_of_mem_filter he)

theorem reachable_wellFormed {db : DB} (h : Reachable db) : WellFormed db := by
  induction h with
  | empty =>
    intro e he
    exact absurd he (List.not_mem_nil e)
  | add openOk db shard keys hr hlo hhi ih =>
    by_cases h0 : keys.length = 0
    · simpa [FragmentationAdd, h0] using ih
    · by_cases ho : openOk = false
      · simpa [FragmentationAdd, h0, ho] using ih
      · have hdb : (FragmentationAdd openOk db shard keys).db
            = addLoop db (intToDecimal shard) keys := by
          simp [FragmentationAdd, h0, ho]
        rw [hdb]
        exact wf_addLoop ⟨shard, hlo, hhi, rfl⟩ keys ih
  | update openOk db key newShard hr hlo hhi ih =>
    by_cases hk : key = ""
    · simpa [FragmentationUpdate, hk] using ih
    · cases openOk with
      | false => simpa [FragmentationUpdate, FragmentationExists, hk] using ih
      | true =>
        cases hres : (FragmentationExists true db key).res with
        | error e => simpa [FragmentationUpdate, hk, hres] using ih
        | ok b =>
          cases b with
          | false => simpa [FragmentationUpdate, hk, hres] using ih
          | true =>
            have hdb : (FragmentationUpdate true db key newShard).db
                = db.put key (intToDecimal newShard) := by
              simp [FragmentationUpdate, hk, hres]
            rw [hdb]
            exact wf_put ih ⟨newShard, hlo, hhi, rfl⟩
  | remove openOk db key hr ih =>
    by_cases hk : key = ""
    · simpa [FragmentationRemove, hk] using ih
    · by_cases ho : openOk = false
      · simpa [FragmentationRemove, hk, ho] using ih
      · cases hget : db.get key with
        | none => simpa [FragmentationRemove, hk, ho, hget] using ih
        | some v =>
          have hdb : (FragmentationRemove openOk db key).db = db.delete key := by
            simp [FragmentationRemove, hk, ho, hget]
          rw [hdb]
          exact wf_delete ih

theorem get_no_conversion_error {db : DB} (h : WellFormed db)
    (openOk : Bool) (k : String) :
    (FragmentationGet openOk db k).res ≠ .error .errShardConversion := by
  by_cases hk : k = ""
  · simp [FragmentationGet, hk]
  · by_cases ho : openOk = false
    · simp [FragmentationGet, hk, ho]
    · cases hget : db.get k with
      | none => simp [FragmentationGet, hk, ho, hget]
      | some v =>
        obtain ⟨e, hmem, hev⟩ := DB.get_mem hget
        obtain ⟨n, hlo, hhi, hval⟩ := h e hmem
        have hparse : parseInt64 v = some n := by
          rw [← hev, hval]
          exact parseInt64_intToDecimal hlo hhi
        simp [FragmentationGet, hk, ho, hget, hparse]

/-! ## Claims about the fragmentation directory -/

/-- C1: for every non-empty key and every int64 shard, a successful
`FragmentationAdd(shard, key)` followed by `FragmentationGet(key)`
returns exactly `shard`: the base-10 decimal text written by Add parses
back to the same int64. -/
theorem fragmentationAdd_get_roundtrip (db : DB) (key : String) (shard : Int)
    (hk : key ≠ "") (hlo : -(2 ^ 63) ≤ shard) (hhi : shard < 2 ^ 63) :
    (FragmentationAdd true db shard [key]).res = .ok () ∧
    (FragmentationGet true (FragmentationAdd true db shard [key]).db key).res
      = .ok shard := by
  have hdb : (FragmentationAdd true db shard [key]).db
      = db.put key (intToDecimal shard) := by
    simp [FragmentationAdd, addLoop, hk]
  refine ⟨by simp [FragmentationAdd], ?_⟩
  rw [hdb]
  simp [FragmentationGet, hk, DB.get_put, parseInt64_intToDecimal hlo hhi]

theorem fragmentationAdd_get_roundtrip_witness :
    (FragmentationAdd true ⟨[]⟩ 7 ["a"]).res = .ok () ∧
    (FragmentationGet true (FragmentationAdd true ⟨[]⟩ 7 ["a"]).db "a").res
      = .ok 7 :=
  fragmentationAdd_get_roundtrip ⟨[]⟩ "a" 7 (by decide) (by decide) (by decide)

/-- C2 counterexample: `FragmentationAdd(1, "")` is not rejected with
`ErrEmptyKey`: the key list `[""]` is non-empty, so the function opens
the store (one open, hence directory creation I/O) and returns success,
merely skipping the empty key inside the loop. -/
theorem fragmentationAdd_empty_string_not_rejected :
    (FragmentationAdd true ⟨[]⟩ 1 [""]).res = .ok () ∧
    (FragmentationAdd true ⟨[]⟩ 1 [""]).opens = 1 := by
  constructor
  · rfl
  · rfl

/-- C2 amended: `Get`, `Update`, `Remove` and `Exists` each reject the
empty key with `ErrEmptyKey` before any I/O (zero store opens, store
untouched); `Add` rejects the empty key list `[]` the same way, but
given the list `[""]` it opens the store once, writes nothing, and
returns success. -/
theorem empty_key_rejection_amended :
    (∀ openOk db shard, FragmentationAdd openOk db shard []
      = ⟨.error .errEmptyKey, db, 0⟩) ∧
    (∀ openOk db, FragmentationGet openOk db "" = ⟨.error .errEmptyKey, db, 0⟩) ∧
    (∀ openOk db n, FragmentationUpdate openOk db "" n
      = ⟨.error .errEmptyKey, db, 0⟩) ∧
    (∀ openOk db, FragmentationRemove openOk db "" = ⟨.error .errEmptyKey, db, 0⟩) ∧
    (∀ openOk db, FragmentationExists openOk db "" = ⟨.error .errEmptyKey, db, 0⟩) ∧
    (∀ openOk db shard, (FragmentationAdd openOk db shard [""]).opens = 1) ∧
    (∀ db shard, FragmentationAdd true db shard [""] = ⟨.ok (), db, 1⟩) := by
  refine ⟨?_, ?_, ?_, ?_, ?_, ?_, ?_⟩
  · intro openOk db shard
    simp [FragmentationAdd]
  · intro openOk db
    simp [FragmentationGet]
  · intro openOk db n
    simp [FragmentationUpdate]
  · intro openOk db
    simp [FragmentationRemove]
  · intro openOk db
    simp [FragmentationExists]
  · intro openOk db shard
    cases openOk <;> simp [FragmentationAdd]
  · intro db shard
    simp [FragmentationAdd, addLoop]

/-- C3: a mixed batch `Add(1, "a", "", "b")` skips the empty entry
without aborting and succeeds; afterwards `Get("a")` and `Get("b")`
both return `1`, and no entry exists for the key `""`. -/
theorem fragmentationAdd_mixed_batch (db : DB) (h : db.get "" = none) :
    (FragmentationAdd true db 1 ["a", "", "b"]).res = .ok () ∧
    (FragmentationGet true (FragmentationAdd true db 1 ["a", "", "b"]).db "a").res
      = .ok 1 ∧
    (FragmentationGet true (FragmentationAdd true db 1 ["a", "", "b"]).db "b").res
      = .ok 1 ∧
    (FragmentationAdd true db 1 ["a", "", "b"]).db.get "" = none := by
  have hdb : (FragmentationAdd true db 1 ["a", "", "b"]).db
      = (db.put "a" (intToDecimal 1)).put "b" (intToDecimal 1) := by
    simp [FragmentationAdd, addLoop]
  have hparse : parseInt64 (intToDecimal 1) = some 1 := by decide
  have hga : ((db.put "a" (intToDecimal 1)).put "b" (intToDecimal 1)).get "a"
      = some (intToDecimal 1) := by
    rw [DB.get_put_ne _ _ _ _ (by decide), DB.get_put]
  have hgb : ((db.put "a" (intToDecimal 1)).put "b" (intToDecimal 1)).get "b"
      = some (intToDecimal 1) := DB.get_put _ _ _
  have hge : ((db.put "a" (intToDecimal 1)).put "b" (intToDecimal 1)).get ""
      = none := by
    rw [DB.get_put_ne _ _ _ _ (by decide), DB.get_put_ne _ _ _ _ (by decide), h]
  refine ⟨by simp [FragmentationAdd], ?_, ?_, ?_⟩
  · rw [hdb]
    simp [FragmentationGet, hga, hparse]
  · rw [hdb]
    simp [FragmentationGet, hgb, hparse]
  · rw [hdb, hge]

theorem fragmentationAdd_mixed_batch_witness :
    (FragmentationAdd true ⟨[]⟩ 1 ["a", "", "b"]).res = .ok () ∧
    (FragmentationGet true (FragmentationAdd true ⟨[]⟩ 1 ["a", "", "b"]).db "a").res
      = .ok 1 ∧
    (FragmentationGet true (FragmentationAdd true ⟨[]⟩ 1 ["a", "", "b"]).db "b").res
      = .ok 1 ∧
    (FragmentationAdd true ⟨[]⟩ 1 ["a", "", "b"]).db.get "" = none :=
  fragmentationAdd_mixed_batch ⟨[]⟩ (by decide)

/-- C4: updating a key with no assignment fails with `ErrShardNotFound`,
creates nothing, and leaves the directory state unchanged; afterwards
`FragmentationExists` still reports `false`. -/
theorem fragmentationUpdate_requires_existence (db : DB) (key : String)
    (newShard : Int) (hk : key ≠ "") (habs : db.get key = none) :
    FragmentationUpdate true db key newShard
      = ⟨.error .errShardNotFound, db, 1⟩ ∧
    (FragmentationExists true
      (FragmentationUpdate true db key newShard).db key).res = .ok false := by
  have hex : FragmentationExists true db key = ⟨.ok false, db, 1⟩ := by
    simp [FragmentationExists, hk, habs]
  have hupd : FragmentationUpdate true db key newShard
      = ⟨.error .errShardNotFound, db, 1⟩ := by
    simp [FragmentationUpdate, hk, hex]
  refine ⟨hupd, ?_⟩
  rw [hupd]
  simp [hex]

theorem fragmentationUpdate_requires_existence_witness :
    FragmentationUpdate true ⟨[]⟩ "unknown" 1
      = ⟨.error .errShardNotFound, ⟨[]⟩, 1⟩ ∧
    (FragmentationExists true
      (FragmentationUpdate true ⟨[]⟩ "unknown" 1).db "unknown").res = .ok false :=
  fragmentationUpdate_requires_existence ⟨[]⟩ "unknown" 1 (by decide) (by decide)

/-- C5: removing a key with no assignment fails with `ErrShardNotFound`;
after `Add(shard, key)` a `Remove(key)` succeeds, and afterwards
`Exists(key)` is `false` and `Get(key)` fails with the not-found
error. -/
theorem fragmentationRemove_semantics (db : DB) (key : String) (shard : Int)
    (hk : key ≠ "") :
    (db.get key = none →
      FragmentationRemove true db key = ⟨.error .errShardNotFound, db, 1⟩) ∧
    (FragmentationRemove true (FragmentationAdd true db shard [key]).db key).res
      = .ok () ∧
    (FragmentationExists true
      (FragmentationRemove true
        (FragmentationAdd true db shard [key]).db key).db key).res = .ok false ∧
    (FragmentationGet true
      (FragmentationRemove true
        (FragmentationAdd true db shard [key]).db key).db key).res
      = .error .errShardNotFound := by
  have hadd : (FragmentationAdd true db shard [key]).db
      = db.put key (intToDecimal shard) := by
    simp [FragmentationAdd, addLoop, hk]
  have hrem : FragmentationRemove true (db.put key (intToDecimal shard)) key
      = ⟨.ok (), (db.put key (intToDecimal shard)).delete key, 1⟩ := by
    simp [FragmentationRemove, hk, DB.get_put]
  refine ⟨fun habs => by simp [FragmentationRemove, hk, habs], ?_, ?_, ?_⟩
  · rw [hadd, hrem]
  · rw [hadd, hrem]
    simp [FragmentationExists, hk, DB.get_delete]
  · rw [hadd, hrem]
    simp [FragmentationGet, hk, DB.get_delete]

theorem fragmentationRemove_semantics_witness :
    (DB.get ⟨[]⟩ "k" = none →
      FragmentationRemove true ⟨[]⟩ "k" = ⟨.error .errShardNotFound, ⟨[]⟩, 1⟩) ∧
    (FragmentationRemove true (FragmentationAdd true ⟨[]⟩ 3 ["k"]).db "k").res
      = .ok () ∧
    (FragmentationExists true
      (FragmentationRemove true
        (FragmentationAdd true ⟨[]⟩ 3 ["k"]).db "k").db "k").res = .ok false ∧
    (FragmentationGet true
      (FragmentationRemove true
        (FragmentationAdd true ⟨[]⟩ 3 ["k"]).db "k").db "k").res
      = .error .errShardNotFound :=
  fragmentationRemove_semantics ⟨[]⟩ "k" 3 (by decide)

/-- C6: `FragmentationAdd` is a blind upsert: `Add(5, k)` then
`Add(9, k)` both succeed with no error on reassignment, and a subsequent
`Get(k)` returns `9` — the later write replaces the earlier one. -/
theorem fragmentationAdd_upsert (db : DB) (key : String) (hk : key ≠ "") :
    (FragmentationAdd true db 5 [key]).res = .ok () ∧
    (FragmentationAdd true (FragmentationAdd true db 5 [key]).db 9 [key]).res
      = .ok () ∧
    (FragmentationGet true
      (FragmentationAdd true
        (FragmentationAdd true db 5 [key]).db 9 [key]).db key).res = .ok 9 := by
  have hdb : (FragmentationAdd true (FragmentationAdd true db 5 [key]).db 9 [key]).db
      = ((FragmentationAdd true db 5 [key]).db).put key (intToDecimal 9) := by
    simp [FragmentationAdd, addLoop, hk]
  have hparse : parseInt64 (intToDecimal 9) = some 9 := by decide
  refine ⟨by simp [FragmentationAdd], by simp [FragmentationAdd], ?_⟩
  rw [hdb]
  simp [FragmentationGet, hk, DB.get_put, hparse]

theorem fragmentationAdd_upsert_witness :
    (FragmentationAdd true ⟨[]⟩ 5 ["k"]).res = .ok () ∧
    (FragmentationAdd true (FragmentationAdd true ⟨[]⟩ 5 ["k"]).db 9 ["k"]).res
      = .ok () ∧
    (FragmentationGet true
      (FragmentationAdd true
        (FragmentationAdd true ⟨[]⟩ 5 ["k"]).db 9 ["k"]).db "k").res = .ok 9 :=
  fragmentationAdd_upsert ⟨[]⟩ "k" (by decide)

/-- C7: for a non-empty key that is absent, `FragmentationExists`
returns `(false, nil)` — absence is not an error — and `Exists` can
return an error only when the underlying store cannot be opened. -/
theorem fragmentationExists_absence_not_error (db : DB) (key : String)
    (hk : key ≠ "") :
    (db.get key = none → (FragmentationExists true db key).res = .ok false) ∧
    (∀ openOk e, (FragmentationExists openOk db key).res = .error e →
      openOk = false ∧ e = .errDatabaseOpen) := by
  constructor
  · intro habs
    simp [FragmentationExists, hk, habs]
  · intro openOk e hres
    cases openOk with
    | false =>
      simp [FragmentationExists, hk] at hres
      exact ⟨rfl, hres.symm⟩
    | true =>
      cases hget : db.get key with
      | none => simp [FragmentationExists, hk, hget] at hres
      | some v => simp [FragmentationExists, hk, hget] at hres

theorem fragmentationExists_absence_not_error_witness :
    (DB.get ⟨[]⟩ "k" = none → (FragmentationExists true ⟨[]⟩ "k").res = .ok false) ∧
    (∀ openOk e, (FragmentationExists openOk ⟨[]⟩ "k").res = .error e →
      openOk = false ∧ e = .errDatabaseOpen) :=
  fragmentationExists_absence_not_error ⟨[]⟩ "k" (by decide)

/-- C10: in every directory state reachable from the empty store using
only the directory's own Add, Update and Remove, every stored value is
the base-10 decimal rendering of an int64, and consequently
`FragmentationGet` can never fail with `ErrShardConversion` — that
branch needs the store to be modified outside these operations. -/
theorem fragmentation_values_wellFormed (db : DB) (h : Reachable db) :
    WellFormed db ∧
    ∀ openOk k, (FragmentationGet openOk db k).res ≠ .error .errShardConversion :=
  ⟨reachable_wellFormed h,
   fun openOk k => get_no_conversion_error (reachable_wellFormed h) openOk k⟩

theorem fragmentation_values_wellFormed_witness :
    (FragmentationGet true ⟨[]⟩ "a").res ≠ .error .errShardConversion :=
  (fragmentation_values_wellFormed ⟨[]⟩ Reachable.empty).2 true "a"

/-! ## Path resolution

`path.Clean`, `path.Join`, `strings.Trim(p, "/")`, `strings.TrimSpace`
and the repository's `buildPath`/`CleanPath` helpers, modelled over
`List Char`.  Go's `path.Clean` is the standard lexical algorithm: split
on `/`, drop empty and `.` segments, resolve `..` against a stack
(keeping leading `..`s of a relative path, dropping them at the root of
a rooted path), and rejoin. -/

/-- Segments of a character list split on `/` (boundary separators
yield empty segments, exactly as Go's element scan does). -/
def splitSlash : List Char → List (List Char)
  | [] => [[]]
  | c :: cs =>
    if c = '/' then [] :: splitSlash cs
    else
      match splitSlash cs with
      | [] => [[c]]
      | s :: rest => (c :: s) :: rest

/-- One step of `path.Clean`: push a real segment, skip empty and `.`
segments, and resolve `..` against the stack (top of stack first). -/
def stepSeg (rooted : Bool) (stack : List (List Char)) (seg : List Char) :
    List (List Char) :=
  if seg = [] ∨ seg = ['.'] then stack
  else if seg = ['.', '.'] then
    match stack with
    | [] => if rooted then [] else [['.', '.']]
    | top :: rest =>
      if rooted = false ∧ top = ['.', '.'] then ['.', '.'] :: stack else rest
  else seg :: stack

/-- Rejoin segments with `/` separators. -/
def joinSlash : List (List Char) → List Char
  | [] => []
  | [x] => x
  | x :: xs => x ++ '/' :: joinSlash xs

/-- Go `path.Clean` on a character list. -/
def cleanChars (p : List Char) : List Char :=
  match p with
  | [] => ['.']
  | c :: _ =>
    let rooted : Bool := c == '/'
    let out := ((splitSlash p).foldl (stepSeg rooted) []).reverse
    let body := joinSlash out
    if rooted then (if body = [] then ['/'] else '/' :: body)
    else (if body = [] then ['.'] else body)

/-- Go `strings.Trim(p, "/")`: removes leading and trailing slash
characters (trailing first here; the two sides are independent). -/
def trimSlashes (l : List Char) : List Char :=
  ((l.reverse.dropWhile (fun c => c == '/')).reverse).dropWhile (fun c => c == '/')

/-- Composition implementing `CleanPath` at the character level. -/
def cleanPathChars (l : List Char) : List Char :=
  cleanChars (trimSlashes l)

/-- Model of the repository's `CleanPath`:
`path.Clean(strings.Trim(p, "/"))`. -/
def CleanPath (s : String) : String :=
  ⟨cleanPathChars s.data⟩

/-- Go `path.Clean` on strings. -/
def goClean (s : String) : String :=
  ⟨cleanChars s.data⟩

/-- Go `unicode.IsSpace`: the White_Space code points. -/
def goIsSpace (c : Char) : Bool :=
  (9 ≤ c.toNat && c.toNat ≤ 13) || c.toNat == 32 || c.toNat == 133 ||
    c.toNat == 160 || c.toNat == 5760 ||
    (8192 ≤ c.toNat && c.toNat ≤ 8202) || c.toNat == 8232 ||
    c.toNat == 8233 || c.toNat == 8239 || c.toNat == 8287 || c.toNat == 12288

/-- Go `strings.TrimSpace`: removes leading and trailing whitespace. -/
def trimSpace (s : String) : String :=
  ⟨((s.data.reverse.dropWhile goIsSpace).reverse).dropWhile goIsSpace⟩

/-- Go `path.Join` restricted to two elements: empty elements are
skipped and the joined result is cleaned; all-empty input yields "". -/
def goJoin (a b : String) : String :=
  if a = "" ∧ b = "" then ""
  else if a = "" then goClean b
  else if b = "" then goClean a
  else goClean (a ++ "/" ++ b)

/-- Resolved location: the returned path and the directory that is
created if missing (`os.MkdirAll` target). -/
structure BuildResult where
  path : String
  mkdirTarget : String
deriving DecidableEq

/-- Model of `buildPath` (CONTRIBUTING.md lines 457-485): fewer than two
components is `ErrInvalidPath`; every component is whitespace-trimmed;
the first two components are joined into the directory that is created
if missing; when more components are given, only `cleanedParams[2]` is
appended to the returned path. -/
def buildPath : List String → Except FragError BuildResult
  | p0 :: p1 :: rest =>
    let dir := goJoin (trimSpace p0) (trimSpace p1)
    match rest with
    | [] => .ok ⟨dir, dir⟩
    | p2 :: _ => .ok ⟨goJoin dir (trimSpace p2), dir⟩
  | _ => .error .errInvalidPath

/-- Model of `CreateLevelDBDatabase` (CONTRIBUTING.md lines 435-452) up
to the point where the LevelDB engine is handed the resolved path: the
explicit `len(params) < 2` guard followed by `buildPath`. -/
def CreateLevelDBDatabase (params : List String) : Except FragError BuildResult :=
  if params.length < 2 then .error .errInvalidPath
  else buildPath params

/-- Join a whole component list, `path.Join` style. -/
def joinAllSegs : List String → String
  | [] => ""
  | [x] => x
  | x :: xs => goJoin x (joinAllSegs xs)

/-- Formalisation of the claim's wording for path resolution, for
comparison with `buildPath`: identical except that the third AND ALL
LATER components are collapsed into the final appended path segment. -/
def buildPathSpec : List String → Except FragError BuildResult
  | p0 :: p1 :: rest =>
    let dir := goJoin (trimSpace p0) (trimSpace p1)
    match rest with
    | [] => .ok ⟨dir, dir⟩
    | _ => .ok ⟨goJoin dir (joinAllSegs (rest.map trimSpace)), dir⟩
  | _ => .error .errInvalidPath

/-- C8 counterexample: on `["a", "b", "c", "d"]` the code returns the
path `a/b/c`, silently dropping `d`, while the claim's collapse of the
third-and-later components would produce `a/b/c/d`. -/
theorem buildPath_drops_fourth_component :
    buildPath ["a", "b", "c", "d"] = .ok ⟨"a/b/c", "a/b"⟩ ∧
    buildPathSpec ["a", "b", "c", "d"] = .ok ⟨"a/b/c/d", "a/b"⟩ ∧
    buildPath ["a", "b", "c", "d"] ≠ buildPathSpec ["a", "b", "c", "d"] := by
  refine ⟨by decide, by decide, by decide⟩

/-- C8 amended: fewer than two components fails with `ErrInvalidPath`;
on up to three components the code agrees exactly with the claim's
description (whitespace-trimming of each component, the first two
joined into the directory created if missing, a third appended to the
returned path only); components after the third are ignored rather
than collapsed into the final segment. -/
theorem buildPath_resolution :
    (∀ ps : List String, ps.length < 2 → buildPath ps = .error .errInvalidPath) ∧
    (∀ p0 p1 p2 rest, buildPath (p0 :: p1 :: p2 :: rest) = buildPath [p0, p1, p2]) ∧
    (∀ ps : List String, ps.length ≤ 3 → buildPath ps = buildPathSpec ps) := by
  refine ⟨?_, ?_, ?_⟩
  · intro ps h
    rcases ps with _ | ⟨p0, _ | ⟨p1, rest⟩⟩
    · rfl
    · rfl
    · simp at h
      omega
  · intro p0 p1 p2 rest
    rfl
  · intro ps h
    rcases ps with _ | ⟨p0, _ | ⟨p1, _ | ⟨p2, _ | ⟨p3, rest⟩⟩⟩⟩
    · rfl
    · rfl
    · rfl
    · rfl
    · simp at h

theorem buildPath_resolution_witness :
    buildPath ["x"] = .error .errInvalidPath ∧
    buildPath ["Database/", "GlobalSchema", "/", "zz"]
      = buildPath ["Database/", "GlobalSchema", "/"] ∧
    buildPath ["Database/", "GlobalSchema", "/"]
      = buildPathSpec ["Database/", "GlobalSchema", "/"] :=
  ⟨buildPath_resolution.1 ["x"] (by decide),
   buildPath_resolution.2.1 "Database/" "GlobalSchema" "/" ["zz"],
   buildPath_resolution.2.2 ["Database/", "GlobalSchema", "/"] (by decide)⟩

/-! ## Idempotence of CleanPath

The output of `path.Clean` on a relative path is `"."` or a `/`-joined
list of segments that are non-empty, slash-free, not `"."`, and whose
`".."` entries all sit in front.  Splitting such an output and cleaning
it again reproduces it, and it carries no leading or trailing slash, so
the surrounding `strings.Trim` is also the identity on it. -/

/-- A segment that can appear in the output of cleaning: non-empty, not
the dot segment, slash-free. -/
def validSeg (x : List Char) : Prop :=
  x ≠ [] ∧ x ≠ ['.'] ∧ '/' ∉ x

/-- Invariant of the cleaning stack for relative paths: every entry is
a surviving segment, and the `".."` entries occupy the bottom of the
stack (the tail of the list, as the stack grows at the head). -/
def CleanStack (st : List (List Char)) : Prop :=
  (∀ x ∈ st, validSeg x) ∧
  ∃ a b, st = a ++ b ∧ (∀ x ∈ a, x ≠ ['.', '.']) ∧ (∀ x ∈ b, x = ['.', '.'])

theorem splitSlash_ne_nil (l : List Char) : splitSlash l ≠ [] := by
  induction l with
  | nil => simp [splitSlash]
  | cons c cs ih =>
    simp only [splitSlash]
    split
    · simp
    · cases h : splitSlash cs with
      | nil => simp
      | cons s rest => simp

theorem mem_splitSlash_no_slash (l : List Char) :
    ∀ x ∈ splitSlash l, '/' ∉ x := by
  induction l with
  | nil =>
    intro x hx
    simp [splitSlash] at hx
    simp [hx]
  | cons c cs ih =>
    intro x hx
    simp only [splitSlash] at hx
    by_cases hc : c = '/'
    · rw [if_pos hc] at hx
      rcases List.mem_cons.mp hx with rfl | hmem
      · simp
      · exact ih x hmem
    · rw [if_neg hc] at hx
      cases h : splitSlash cs with
      | nil =>
        rw [h] at hx
        simp at hx
        subst hx
        simp only [List.mem_singleton]
        exact fun hy => hc hy.symm
      | cons s rest =>
        rw [h] at hx
        rcases List.mem_cons.mp hx with rfl | hmem
        · have hs : '/' ∉ s := ih s (by rw [h]; exact List.mem_cons_self _ _)
          intro hmm
          rcases List.mem_cons.mp hmm with h1 | h2
          · exact hc h1.symm
          · exact hs h2
        · exact ih x (by rw [h]; exact List.mem_cons_of_mem _ hmem)

theorem splitSlash_no_slash {x : List Char} (h : '/' ∉ x) : splitSlash x = [x] := by
  induction x with
  | nil => rfl
  | cons c cs ih =>
    have hc : c ≠ '/' := fun hx => h (by rw [hx]; exact List.mem_cons_self _ _)
    have hcs : '/' ∉ cs := fun hx => h (List.mem_cons_of_mem _ hx)
    simp only [splitSlash]
    rw [if_neg hc, ih hcs]

theorem splitSlash_append_slash {x : List Char} (r : List Char) (h : '/' ∉ x) :
    splitSlash (x ++ '/' :: r) = x :: splitSlash r := by
  induction x with
  | nil => simp [splitSlash]
  | cons c cs ih =>
    have hc : c ≠ '/' := fun hx => h (by rw [hx]; exact List.mem_cons_self _ _)
    have hcs : '/' ∉ cs := fun hx => h (List.mem_cons_of_mem _ hx)
    simp only [List.cons_append, splitSlash]
    rw [if_neg hc, show cs.append ('/' :: r) = cs ++ '/' :: r from rfl, ih hcs]

theorem splitSlash_joinSlash : ∀ l : List (List Char), l ≠ [] →
    (∀ x ∈ l, '/' ∉ x) → splitSlash (joinSlash l) = l
  | [], h, _ => absurd rfl h
  | [x], _, hm => by
    simp only [joinSlash]
    exact splitSlash_no_slash (hm x (List.mem_cons_self _ _))
  | x :: y :: rest, _, hm => by
    simp only [joinSlash]
    rw [splitSlash_append_slash _ (hm x (List.mem_cons_self _ _))]
    rw [splitSlash_joinSlash (y :: rest) (by simp)
      (fun z hz => hm z (List.mem_cons_of_mem _ hz))]

theorem stepSeg_dd_all {s : List (List Char)} (h : ∀ x ∈ s, x = ['.', '.']) :
    stepSeg false s ['.', '.'] = ['.', '.'] :: s := by
  cases s with
  | nil => rfl
  | cons top rest =>
    have htop : top = ['.', '.'] := h top (List.mem_cons_self _ _)
    simp [stepSeg, htop]

theorem foldl_dd : ∀ (bl s : List (List Char)), (∀ x ∈ bl, x = ['.', '.']) →
    (∀ x ∈ s, x = ['.', '.']) →
    List.foldl (stepSeg false) s bl = bl.reverse ++ s
  | [], s, _, _ => by simp
  | x :: xs, s, hbl, hs => by
    have hx : x = ['.', '.'] := hbl x (List.mem_cons_self _ _)
    rw [List.foldl_cons, hx, stepSeg_dd_all hs]
    rw [foldl_dd xs (['.', '.'] :: s)
      (fun z hz => hbl z (List.mem_cons_of_mem _ hz))
      (by
        intro z hz
        rcases List.mem_cons.mp hz with rfl | hz2
        · rfl
        · exact hs z hz2)]
    simp [hx]

theorem stepSeg_push {x : List Char} (hv : validSeg x) (hdd : x ≠ ['.', '.'])
    (s : List (List Char)) : stepSeg false s x = x :: s := by
  obtain ⟨h1, h2, _⟩ := hv
  simp [stepSeg, h1, h2, hdd]

theorem foldl_push : ∀ (al s : List (List Char)),
    (∀ x ∈ al, validSeg x ∧ x ≠ ['.', '.']) →
    List.foldl (stepSeg false) s al = al.reverse ++ s
  | [], s, _ => by simp
  | x :: xs, s, hal => by
    obtain ⟨hv, hdd⟩ := hal x (List.mem_cons_self _ _)
    rw [List.foldl_cons, stepSeg_push hv hdd]
    rw [foldl_push xs (x :: s) (fun z hz => hal z (List.mem_cons_of_mem _ hz))]
    simp

theorem cleanStack_nil : CleanStack [] :=
  ⟨by simp, [], [], rfl, by simp, by simp⟩

theorem cleanStack_step {st : List (List Char)} (h : CleanStack st)
    {seg : List Char} (hseg : '/' ∉ seg) : CleanStack (stepSeg false st seg) := by
  obtain ⟨hval, a, b, hab, ha, hb⟩ := h
  by_cases h1 : seg = [] ∨ seg = ['.']
  · rw [show stepSeg false st seg = st from by simp [stepSeg, h1]]
    exact ⟨hval, a, b, hab, ha, hb⟩
  · push_neg at h1
    by_cases h2 : seg = ['.', '.']
    · subst h2
      cases ha2 : a with
      | nil =>
        have hball : ∀ x ∈ st, x = ['.', '.'] := by
          intro x hx
          exact hb x (by rw [hab, ha2] at hx; simpa using hx)
        rw [stepSeg_dd_all hball]
        refine ⟨?_, [], ['.', '.'] :: st, rfl, by simp, ?_⟩
        · intro x hx
          rcases List.mem_cons.mp hx with rfl | hx2
          · exact ⟨by simp, by simp, by simp⟩
          · exact hval x hx2
        · intro x hx
          rcases List.mem_cons.mp hx with rfl | hx2
          · rfl
          · exact hball x hx2
      | cons t as =>
        have htnd : t ≠ ['.', '.'] := ha t (by rw [ha2]; exact List.mem_cons_self _ _)
        have hst : st = t :: (as ++ b) := by rw [hab, ha2]; rfl
        rw [hst]
        rw [show stepSeg false (t :: (as ++ b)) ['.', '.'] = as ++ b from by
          simp [stepSeg, htnd]]
        refine ⟨?_, as, b, rfl, ?_, hb⟩
        · intro x hx
          exact hval x (by rw [hst]; exact List.mem_cons_of_mem _ hx)
        · intro x hx
          exact ha x (by rw [ha2]; exact List.mem_cons_of_mem _ hx)
    · have hv : validSeg seg := ⟨h1.1, h1.2, hseg⟩
      rw [stepSeg_push hv h2]
      refine ⟨?_, seg :: a, b, by rw [hab]; rfl, ?_, hb⟩
      · intro x hx
        rcases List.mem_cons.mp hx with rfl | hx2
        · exact hv
        · exact hval x hx2
      · intro x hx
        rcases List.mem_cons.mp hx with rfl | hx2
        · exact h2
        · exact ha x hx2

theorem cleanStack_foldl : ∀ (segs : List (List Char)) (st : List (List Char)),
    CleanStack st → (∀ x ∈ segs, '/' ∉ x) →
    CleanStack (List.foldl (stepSeg false) st segs)
  | [], st, h, _ => h
  | x :: xs, st, h, hm => by
    rw [List.foldl_cons]
    exact cleanStack_foldl xs _ (cleanStack_step h (hm x (List.mem_cons_self _ _)))
      (fun z hz => hm z (List.mem_cons_of_mem _ hz))

theorem cleanStack_replay {st : List (List Char)} (h : CleanStack st) :
    List.foldl (stepSeg false) [] st.reverse = st := by
  obtain ⟨hval, a, b, rfl, ha, hb⟩ := h
  have hav : ∀ x ∈ a.reverse, validSeg x ∧ x ≠ ['.', '.'] := by
    intro z hz
    have hza := List.mem_reverse.mp hz
    exact ⟨hval z (List.mem_append.mpr (Or.inl hza)), ha z hza⟩
  have hbv : ∀ x ∈ b.reverse, x = ['.', '.'] :=
    fun z hz => hb z (List.mem_reverse.mp hz)
  rw [List.reverse_append, List.foldl_append,
    foldl_dd b.reverse [] hbv (by simp),
    List.reverse_reverse, List.append_nil,
    foldl_push a.reverse b hav,
    List.reverse_reverse]

theorem joinSlash_ne_nil : ∀ {l : List (List Char)}, l ≠ [] → (∀ x ∈ l, x ≠ []) →
    joinSlash l ≠ []
  | [], h, _ => absurd rfl h
  | [x], _, hm => by simpa [joinSlash] using hm x (List.mem_cons_self _ _)
  | x :: y :: rest, _, _ => by simp [joinSlash]

theorem joinSlash_head? : ∀ {x : List Char} (xs : List (List Char)), x ≠ [] →
    (joinSlash (x :: xs)).head? = x.head?
  | _, [], _ => rfl
  | x, y :: ys, hx => by
    cases x with
    | nil => exact absurd rfl hx
    | cons c x' => simp [joinSlash]

theorem joinSlash_getLast? : ∀ (l : List (List Char)), l ≠ [] → (∀ x ∈ l, x ≠ []) →
    ∃ x ∈ l, (joinSlash l).getLast? = x.getLast?
  | [], h, _ => absurd rfl h
  | [x], _, _ => ⟨x, List.mem_cons_self _ _, rfl⟩
  | x :: y :: rest, _, hm => by
    obtain ⟨z, hz, hzl⟩ := joinSlash_getLast? (y :: rest) (by simp)
      (fun w hw => hm w (List.mem_cons_of_mem _ hw))
    refine ⟨z, List.mem_cons_of_mem _ hz, ?_⟩
    have hJ : joinSlash (y :: rest) ≠ [] := joinSlash_ne_nil (by simp)
      (fun w hw => hm w (List.mem_cons_of_mem _ hw))
    rw [show joinSlash (x :: y :: rest) = x ++ '/' :: joinSlash (y :: rest) from rfl]
    rw [List.getLast?_append_of_ne_nil x (by simp)]
    cases hJc : joinSlash (y :: rest) with
    | nil => exact absurd hJc hJ
    | cons j J2 =>
      have hzl2 : (j :: J2).getLast? = z.getLast? := by rw [← hJc]; exact hzl
      exact (List.getLast?_cons_cons).trans hzl2

theorem mem_of_getLast?_eq {l : List Char} {a : Char} (h : l.getLast? = some a) :
    a ∈ l := by
  obtain ⟨hne, heq⟩ := @List.mem_getLast?_eq_getLast Char l a h
  rw [heq]
  exact List.getLast_mem hne

theorem dropWhile_head_false (p : Char → Bool) : ∀ {l : List Char} {c : Char},
    (l.dropWhile p).head? = some c → p c = false
  | [], c, h => by simp [List.dropWhile] at h
  | a :: t, c, h => by
    rw [List.dropWhile_cons] at h
    split at h
    · exact dropWhile_head_false p h
    · rename_i hpa
      simp only [List.head?_cons, Option.some.injEq] at h
      simp only [Bool.not_eq_true] at hpa
      rw [← h]
      exact hpa

theorem dropWhile_eq_self_of_head {p : Char → Bool} {l : List Char}
    (h : ∀ c, l.head? = some c → p c = false) : l.dropWhile p = l := by
  cases l with
  | nil => rfl
  | cons a t =>
    have ha := h a rfl
    rw [List.dropWhile_cons, if_neg (by simp [ha])]

theorem getLast?_dropWhile {p : Char → Bool} : ∀ {l : List Char},
    l.dropWhile p ≠ [] → (l.dropWhile p).getLast? = l.getLast?
  | [], h => absurd rfl h
  | a :: t, h => by
    rw [List.dropWhile_cons] at h ⊢
    split at h
    · rename_i hpa
      rw [if_pos hpa]
      have ht : t ≠ [] := by
        intro hx
        rw [hx] at h
        simp [List.dropWhile] at h
      rw [getLast?_dropWhile h]
      cases t with
      | nil => exact absurd rfl ht
      | cons b u => exact (List.getLast?_cons_cons).symm
    · rename_i hpa
      rw [if_neg hpa]

theorem trimSlashes_eq_self {l : List Char}
    (hh : ∀ c, l.head? = some c → (c == '/') = false)
    (hl : ∀ c, l.getLast? = some c → (c == '/') = false) :
    trimSlashes l = l := by
  unfold trimSlashes
  have h1 : l.reverse.dropWhile (fun c => c == '/') = l.reverse := by
    apply dropWhile_eq_self_of_head
    intro c hc
    rw [List.head?_reverse] at hc
    exact hl c hc
  rw [h1, List.reverse_reverse]
  exact dropWhile_eq_self_of_head hh

theorem trimSlashes_head_false {l : List Char} {c : Char}
    (h : (trimSlashes l).head? = some c) : (c == '/') = false := by
  unfold trimSlashes at h
  exact dropWhile_head_false (fun x => x == '/') h

theorem cleanChars_cons_eq {c : Char} (rest : List Char) (hcb : (c == '/') = false) :
    cleanChars (c :: rest) =
      (if joinSlash (((splitSlash (c :: rest)).foldl (stepSeg false) []).reverse) = []
       then ['.']
       else joinSlash (((splitSlash (c :: rest)).foldl (stepSeg false) []).reverse)) := by
  simp [cleanChars, hcb]

/-- Characterization of `path.Clean` on a relative (non-rooted) input:
the result is `"."` or the slash-join of a reversed clean stack. -/
theorem cleanChars_nonrooted_form {l : List Char}
    (hl : ∀ c, l.head? = some c → c ≠ '/') :
    cleanChars l = ['.'] ∨
    ∃ st, CleanStack st ∧ st ≠ [] ∧ cleanChars l = joinSlash st.reverse := by
  cases l with
  | nil => exact Or.inl rfl
  | cons c rest =>
    have hc : c ≠ '/' := hl c rfl
    have hcb : (c == '/') = false := by simp [hc]
    have hstack : CleanStack ((splitSlash (c :: rest)).foldl (stepSeg false) []) :=
      cleanStack_foldl _ _ cleanStack_nil (mem_splitSlash_no_slash _)
    by_cases hb :
        joinSlash (((splitSlash (c :: rest)).foldl (stepSeg false) []).reverse) = []
    · left
      rw [cleanChars_cons_eq rest hcb, if_pos hb]
    · right
      refine ⟨(splitSlash (c :: rest)).foldl (stepSeg false) [], hstack, ?_, ?_⟩
      · intro h0
        rw [h0] at hb
        exact hb rfl
      · rw [cleanChars_cons_eq rest hcb, if_neg hb]

theorem cleanPathChars_idem (l : List Char) :
    cleanPathChars (cleanPathChars l) = cleanPathChars l := by
  have htrim : ∀ c, (trimSlashes l).head? = some c → c ≠ '/' := by
    intro c hc
    have hb := trimSlashes_head_false hc
    simpa using hb
  rcases cleanChars_nonrooted_form htrim with hdot | ⟨st, hstack, hne, heq⟩
  · have h1 : cleanPathChars l = ['.'] := hdot
    rw [h1]
    decide
  · have h1 : cleanPathChars l = joinSlash st.reverse := heq
    rw [h1]
    obtain ⟨hval, hform⟩ := hstack
    have hrevne : st.reverse ≠ [] := by simpa using hne
    have hmemne : ∀ x ∈ st.reverse, x ≠ [] :=
      fun x hx => (hval x (List.mem_reverse.mp hx)).1
    have hmemns : ∀ x ∈ st.reverse, '/' ∉ x :=
      fun x hx => (hval x (List.mem_reverse.mp hx)).2.2
    have hqne : joinSlash st.reverse ≠ [] := joinSlash_ne_nil hrevne hmemne
    have hqhead : ∀ c, (joinSlash st.reverse).head? = some c →
        (c == '/') = false := by
      intro c hc
      obtain ⟨x, xs, hxx⟩ := List.exists_cons_of_ne_nil hrevne
      have hxmem : x ∈ st.reverse := by rw [hxx]; exact List.mem_cons_self _ _
      have hxne : x ≠ [] := hmemne x hxmem
      have hh := joinSlash_head? xs hxne
      rw [hxx, hh] at hc
      have hcx : c ∈ x := by
        cases x with
        | nil => exact absurd rfl hxne
        | cons d x2 =>
          simp only [List.head?_cons, Option.some.injEq] at hc
          rw [← hc]
          exact List.mem_cons_self _ _
      have hns : '/' ∉ x := hmemns x hxmem
      rw [beq_eq_false_iff_ne]
      intro hcs
      rw [hcs] at hcx
      exact hns hcx
    have hqlast : ∀ c, (joinSlash st.reverse).getLast? = some c →
        (c == '/') = false := by
      intro c hc
      obtain ⟨x, hx, hxl⟩ := joinSlash_getLast? st.reverse hrevne hmemne
      rw [hxl] at hc
      have hcx : c ∈ x := mem_of_getLast?_eq hc
      have hns : '/' ∉ x := hmemns x hx
      rw [beq_eq_false_iff_ne]
      intro hcs
      rw [hcs] at hcx
      exact hns hcx
    have htq : trimSlashes (joinSlash st.reverse) = joinSlash st.reverse :=
      trimSlashes_eq_self hqhead hqlast
    obtain ⟨c0, q2, hq0⟩ := List.exists_cons_of_ne_nil hqne
    have hc0 : (c0 == '/') = false := hqhead c0 (by rw [hq0]; rfl)
    have hsplit : splitSlash (joinSlash st.reverse) = st.reverse :=
      splitSlash_joinSlash st.reverse hrevne hmemns
    have hreplay : (splitSlash (joinSlash st.reverse)).foldl (stepSeg false) []
        = st := by
      rw [hsplit]
      exact cleanStack_replay ⟨hval, hform⟩
    show cleanChars (trimSlashes (joinSlash st.reverse)) = joinSlash st.reverse
    rw [htq, hq0, cleanChars_cons_eq q2 hc0, ← hq0, hreplay]
    rw [if_neg hqne]

/-- C9: the repository's `CleanPath` is a pure function, idempotent on
every string — `Clean(Clean(p)) == Clean(p)` — and it normalizes
redundant separators: `Clean("//a//b//") == Clean("a/b")`. -/
theorem cleanPath_idempotent :
    (∀ p : String, CleanPath (CleanPath p) = CleanPath p) ∧
    CleanPath "//a//b//" = CleanPath "a/b" := by
  constructor
  · intro p
    show String.mk (cleanPathChars (cleanPathChars p.data))
      = String.mk (cleanPathChars p.data)
    rw [cleanPathChars_idem]
  · decide

end DMBackend
